import Mathlib

/-!
Shallow embedding of the eBPF stack-sampling probe of the `rust-bpf`
repository (`cargo-trace/probe/src/main.rs`), together with proofs about
its unwind-table binary search, its unwind-instruction interpreter, its
bounded stack walk, and its trace-aggregation step.

Machine integers are modelled as `Nat` (unsigned) and `Int` (signed
two's-complement values), with explicit reduction modulo `2^32` / `2^64`
wherever the Rust code performs wrapping (release-mode) arithmetic.

The eBPF `Array` map type is not among the sources under verification
(`bpf-helpers/src/map.rs` defines `HashMap`, `PerfMap`, `StackTrace` and
`ProgramArray`, but not `Array`).  Modelled from the spec: an array table
("A companion scalar gives the number of populated entries; entries beyond
it are not addressable") is an injected partial function `Nat → Option α`
that is `some` exactly on the populated indices.  The `HashMap` contents
are modelled as a function `key → Option value`, with `insert` an upsert,
matching `bpf-helpers/src/map.rs`.  The fallible 8-byte memory read
performed through `bpf_probe_read` is modelled as an injected
`Nat → Option Nat` (address to read value, `none` on read failure).
-/

/-- `2^32`, the modulus of Rust `u32` arithmetic. -/
def U32 : Nat := 4294967296

/-- `2^64`, the modulus of Rust `u64` / `i64` arithmetic. -/
def U64 : Nat := 18446744073709551616

/-- `u64::MAX`, the default used by `PC.get(i).unwrap_or(u64::MAX)`. -/
def U64MAX : Nat := 18446744073709551615

/-- `const MAX_STACK_DEPTH: usize = 48` from `main.rs`. -/
def MAX_STACK_DEPTH : Nat := 48

/-- `const MAX_BIN_SEARCH_DEPTH: usize = 24` from `main.rs`. -/
def MAX_BIN_SEARCH_DEPTH : Nat := 24

/-- The `Instruction` struct of `main.rs`: `op: u64`, `offset: i64`.
The offset is carried as its mathematical (two's-complement) value. -/
structure Instruction where
  op : Nat
  offset : Int
deriving DecidableEq

/-- Reinterpret a `u64` value as an `i64` (the Rust cast `x as i64`). -/
def i64ofU64 (a : Nat) : Int :=
  if a < 9223372036854775808 then (a : Int) else (a : Int) - 18446744073709551616

/-- Normalise an integer into the `i64` range, as wrapping (release-mode)
`i64` addition does. -/
def wrapI64 (x : Int) : Int :=
  (x + 9223372036854775808) % 18446744073709551616 - 9223372036854775808

/-- Reinterpret an `i64` value as a `u64` (the Rust cast `x as u64`, also
the cast to a pointer used for the `bpf_probe_read` address). -/
def u64ofI64 (x : Int) : Nat :=
  (x % 18446744073709551616).toNat

/-- Mathematical form of "cast to `i64`, add wrapping, cast back to `u64`":
addition of a signed offset to a `u64` modulo `2^64`. -/
def addWrapU64 (a : Nat) (off : Int) : Nat :=
  (((a : Int) + off) % 18446744073709551616).toNat

/-- Embedding of `execute_instruction` from `main.rs`.  `mem` injects the
fallible 8-byte read performed through `sys::bpf_probe_read` (`none` models
a nonzero return code).  Opcode `1` dereferences `cfa + offset`, opcode `2`
returns `rip + offset`, opcode `3` returns `rsp + offset`, anything else
yields `none`. -/
def execute_instruction (mem : Nat → Option Nat) (ins : Instruction)
    (rip rsp cfa : Nat) : Option Nat :=
  if ins.op = 1 then mem (u64ofI64 (wrapI64 (i64ofU64 cfa + ins.offset)))
  else if ins.op = 2 then some (u64ofI64 (wrapI64 (i64ofU64 rip + ins.offset)))
  else if ins.op = 3 then some (u64ofI64 (wrapI64 (i64ofU64 rsp + ins.offset)))
  else none

/-- One step of the `for _ in 0..MAX_BIN_SEARCH_DEPTH` loop of
`binary_search` in `main.rs`, as a fuelled recursion.  State: remaining
fuel, `left`, `right`, and the loop-carried `i` (returned when the fuel is
exhausted or when `left > right`).  The midpoint is computed with wrapping
`u32` addition, and an unpopulated `PC` entry reads as `u64::MAX`. -/
def bsLoop (pc : Nat → Option Nat) (q : Nat) : Nat → Nat → Nat → Nat → Nat
  | 0, _, _, i => i
  | k + 1, l, r, i =>
    if r < l then i
    else
      if (pc (((l + r) % U32) / 2)).getD U64MAX < q then
        bsLoop pc q k (((l + r) % U32) / 2) r (((l + r) % U32) / 2)
      else
        bsLoop pc q k l (((l + r) % U32) / 2) (((l + r) % U32) / 2)

/-- Embedding of `binary_search` from `main.rs`.  `pc` injects the `PC`
array table and `cnt` injects `CONFIG.get(0)` (the populated-entry count,
a `u32`); `right` starts at `count - 1` with wrapping `u32` subtraction. -/
def binary_search (pc : Nat → Option Nat) (cnt : Option Nat) (q : Nat) : Nat :=
  bsLoop pc q MAX_BIN_SEARCH_DEPTH 0 ((cnt.getD 1 + (U32 - 1)) % U32) 0

/-- The index the capped search actually converges to on a monotone table:
the greatest index `i < m` with `val i < q`, i.e. one less than the number
of table values strictly below the query (`0` when there is none, by `Nat`
truncated subtraction).  Used with `m = N - 1`: index `N - 1` itself is
never returned by the loop when `N ≥ 2`. -/
def lowerIdx (val : Nat → Nat) (m q : Nat) : Nat :=
  List.countP (fun i => decide (val i < q)) (List.range m) - 1

/-- Modelled from the spec: the `RangeLocator.locate` contract — "the index
of the entry whose address is the greatest value ≤ query …, or index 0 if
no entry qualifies" — over the first `n` (monotone) table values. -/
def specLocate (val : Nat → Nat) (n q : Nat) : Nat :=
  List.countP (fun i => decide (val i ≤ q)) (List.range n) - 1

/-- Embedding of the loop body of `backtrace` from `main.rs`, as a fuelled
recursion.  State: remaining fuel (`MAX_STACK_DEPTH - d`), the write index
`d`, the current `rip` and `rsp`, and the trace array.  Each iteration
records `rip`, stops on `rip == 0`, locates the rule index, and stops on a
missing `RSP` rule, a failed frame-base evaluation, or a missing `RIP`
rule; a failed return-address evaluation continues with `rip = 0`
(`unwrap_or_default`). -/
def btAux (pcT : Nat → Option Nat) (cnt : Option Nat)
    (rspT ripT : Nat → Option Instruction) (mem : Nat → Option Nat) :
    Nat → Nat → Nat → Nat → List Nat → List Nat
  | 0, _, _, _, stack => stack
  | fuel + 1, d, rip, rsp, stack =>
    if rip = 0 then stack.set d rip
    else
      match rspT (binary_search pcT cnt rip) with
      | none => stack.set d rip
      | some insA =>
        match execute_instruction mem insA rip rsp 0 with
        | none => stack.set d rip
        | some cfa =>
          match ripT (binary_search pcT cnt rip) with
          | none => stack.set d rip
          | some insB =>
            btAux pcT cnt rspT ripT mem fuel (d + 1)
              ((execute_instruction mem insB rip rsp cfa).getD 0) cfa
              (stack.set d rip)

/-- Embedding of `backtrace` from `main.rs`: run the walk loop for
`MAX_STACK_DEPTH` iterations over the zero-initialised fixed-size trace
(`let mut stack = [0; MAX_STACK_DEPTH]` in `increment_stack_counter`). -/
def backtrace (pcT : Nat → Option Nat) (cnt : Option Nat)
    (rspT ripT : Nat → Option Instruction) (mem : Nat → Option Nat)
    (rip rsp : Nat) : List Nat :=
  btAux pcT cnt rspT ripT mem MAX_STACK_DEPTH 0 rip rsp
    (List.replicate MAX_STACK_DEPTH 0)

/-- The sequence of instruction-pointer values the walk loop records (one
entry per executed loop iteration), before zero padding.  Same branch
structure as `btAux`, returning the recorded prefix instead of writing
into the trace array. -/
def btList (pcT : Nat → Option Nat) (cnt : Option Nat)
    (rspT ripT : Nat → Option Instruction) (mem : Nat → Option Nat) :
    Nat → Nat → Nat → List Nat
  | 0, _, _ => []
  | fuel + 1, rip, rsp =>
    rip ::
      (if rip = 0 then []
      else
        match rspT (binary_search pcT cnt rip) with
        | none => []
        | some insA =>
          match execute_instruction mem insA rip rsp 0 with
          | none => []
          | some cfa =>
            match ripT (binary_search pcT cnt rip) with
            | none => []
            | some insB =>
              btList pcT cnt rspT ripT mem fuel
                ((execute_instruction mem insB rip rsp cfa).getD 0) cfa)

/-- Write the elements of `l` into `s` at consecutive positions starting at
index `d` (each write by `List.set`, as the walk loop does). -/
def overwrite : Nat → List Nat → List Nat → List Nat
  | _, [], s => s
  | d, x :: xs, s => overwrite (d + 1) xs (s.set d x)

/-- Embedding of the aggregation step of `increment_stack_counter` in
`main.rs` — `USER_STACK.get(&stack).unwrap_or_default()`, `count += 1`
(wrapping `u32`), `USER_STACK.insert(&stack, &count)` — as a state
transformer on the `USER_STACK` hash-map contents. -/
def record (us : List Nat → Option Nat) (t : List Nat) :
    List Nat → Option Nat :=
  fun k => if k = t then some (((us t).getD 0 + 1) % U32) else us k

/-- Embedding of `increment_stack_counter` from `main.rs`.  `config`
injects the `CONFIG` array (index 0: `PC` entry count, index 1: target
pid), `curPid` the value of `PidTgid::current().pid()`, and `us` the
`USER_STACK` contents before the sample; the result is the `USER_STACK`
contents afterwards. -/
def increment_stack_counter (config : Nat → Option Nat) (curPid : Nat)
    (pcT : Nat → Option Nat) (rspT ripT : Nat → Option Instruction)
    (mem : Nat → Option Nat) (rip0 rsp0 : Nat)
    (us : List Nat → Option Nat) : List Nat → Option Nat :=
  match config 1 with
  | none => us
  | some pid =>
    if curPid = pid then
      record us (backtrace pcT (config 0) rspT ripT mem rip0 rsp0)
    else us

/-- The cast chain `(a as i64 + off) as u64` of `main.rs` equals addition
of the signed offset modulo `2^64`. -/
theorem cast_chain_eq (a : Nat) (off : Int) :
    u64ofI64 (wrapI64 (i64ofU64 a + off)) = addWrapU64 a off := by
  have key : ∀ z : Int,
      ((z + 9223372036854775808) % 18446744073709551616 -
          9223372036854775808) % 18446744073709551616 =
        z % 18446744073709551616 := by
    intro z
    conv_lhs =>
      rw [Int.sub_emod, Int.emod_emod_of_dvd _ (dvd_refl _), ← Int.sub_emod]
    rw [add_sub_cancel_right]
  unfold u64ofI64 wrapI64 i64ofU64 addWrapU64
  split
  · rw [key]
  · rw [key]
    congr 1
    rw [show ((a : Int) - 18446744073709551616 + off) =
        ((a : Int) + off) + 18446744073709551616 * (-1) by ring,
      Int.add_mul_emod_self_left]

/-- C6: with opcode `AddToIp` (op 2) the interpreter returns
`some (rip + offset)` and with `AddToSp` (op 3) `some (rsp + offset)`,
both under signed 64-bit two's-complement wraparound arithmetic; any
opcode other than the three recognised ones yields `none`. -/
theorem c6_execute_add_ops (mem : Nat → Option Nat) (ins : Instruction)
    (rip rsp cfa : Nat) :
    (ins.op = 2 →
      execute_instruction mem ins rip rsp cfa =
        some (addWrapU64 rip ins.offset)) ∧
    (ins.op = 3 →
      execute_instruction mem ins rip rsp cfa =
        some (addWrapU64 rsp ins.offset)) ∧
    (ins.op ≠ 1 → ins.op ≠ 2 → ins.op ≠ 3 →
      execute_instruction mem ins rip rsp cfa = none) := by
  refine ⟨fun h2 => ?_, fun h3 => ?_, fun n1 n2 n3 => ?_⟩ <;>
    simp [execute_instruction, *, cast_chain_eq]

/-- Witness for C6 at concrete inputs: op 2 adds to `rip`, op 3 adds to
`rsp`, op 7 is unrecognised. -/
theorem c6_execute_add_ops_witness :
    execute_instruction (fun _ => none) ⟨2, 5⟩ 10 20 30 = some 15 ∧
    execute_instruction (fun _ => none) ⟨3, -4⟩ 10 20 30 = some 16 ∧
    execute_instruction (fun _ => none) ⟨7, 5⟩ 10 20 30 = none := by
  refine ⟨?_, ?_, ?_⟩
  · rw [(c6_execute_add_ops (fun _ => none) ⟨2, 5⟩ 10 20 30).1 rfl]
    decide
  · rw [(c6_execute_add_ops (fun _ => none) ⟨3, -4⟩ 10 20 30).2.1 rfl]
    decide
  · exact (c6_execute_add_ops (fun _ => none) ⟨7, 5⟩ 10 20 30).2.2
      (by decide) (by decide) (by decide)

/-- C7: with opcode `DerefAdd` (op 1) the interpreter computes the address
`cfa + offset` by signed two's-complement addition and returns exactly the
result of the single injected fallible 8-byte read at that address
(`some v` on success, `none` on failure). -/
theorem c7_execute_deref (mem : Nat → Option Nat) (ins : Instruction)
    (rip rsp cfa : Nat) (h : ins.op = 1) :
    execute_instruction mem ins rip rsp cfa =
      mem (addWrapU64 cfa ins.offset) := by
  simp [execute_instruction, h, cast_chain_eq]

/-- Witness for C7: a concrete memory mapping 35 to 77, read through
`DerefAdd` with `cfa = 30`, `offset = 5`; and the same instruction against
empty memory fails. -/
theorem c7_execute_deref_witness :
    execute_instruction (fun a => if a = 35 then some 77 else none)
        ⟨1, 5⟩ 0 0 30 = some 77 ∧
    execute_instruction (fun _ => none) ⟨1, 5⟩ 0 0 30 = none := by
  constructor
  · rw [c7_execute_deref (fun a => if a = 35 then some 77 else none)
      ⟨1, 5⟩ 0 0 30 rfl]
    decide
  · rw [c7_execute_deref (fun _ => none) ⟨1, 5⟩ 0 0 30 rfl]

/-- C3 fails as stated: the occurrence count is a `u32`, not a `u64`, and
incrementing wraps: a trace stored with count `2^32 - 1` is stored with
count `0` after being recorded again, and `0` is smaller. -/
theorem c3_count_wrap_counterexample :
    record
        (fun k => if k = List.replicate 48 0 then some 4294967295 else none)
        (List.replicate 48 0) (List.replicate 48 0) = some 0 ∧
      ¬ (4294967295 ≤ 0) := by
  constructor
  · decide
  · decide

/-- C3 (amended): the count is an unsigned 32-bit value incremented with
wraparound modulo `2^32`; for every present count `c < 2^32 - 1` recording
the same trace again stores exactly `c + 1 ≥ c` (the wrap to a smaller
value occurs only at `c = 2^32 - 1`). -/
theorem c3_count_increment (us : List Nat → Option Nat) (t : List Nat)
    (c : Nat) (hc : us t = some c) (hlt : c < 4294967295) :
    record us t t = some (c + 1) ∧ c ≤ c + 1 := by
  unfold record
  rw [if_pos rfl, hc]
  refine ⟨?_, Nat.le_succ c⟩
  have : (c + 1) % U32 = c + 1 := Nat.mod_eq_of_lt (by unfold U32; omega)
  simp [this]

/-- Witness for C3 (amended) at a concrete table holding count 5. -/
theorem c3_count_increment_witness :
    record (fun k => if k = List.replicate 48 0 then some 5 else none)
        (List.replicate 48 0) (List.replicate 48 0) = some 6 ∧
      5 ≤ 5 + 1 :=
  c3_count_increment
    (fun k => if k = List.replicate 48 0 then some 5 else none)
    (List.replicate 48 0) 5 (by decide) (by decide)

/-- C4 fails as stated only at the wrap point: a trace present with count
`c = 2^32 - 1` is replaced by `0`, not by `c + 1`. -/
theorem c4_record_counterexample :
    record
        (fun k => if k = List.replicate 48 1 then some 4294967295 else none)
        (List.replicate 48 1) (List.replicate 48 1) = some 0 ∧
      (0 : Nat) ≠ 4294967295 + 1 := by
  constructor
  · decide
  · decide

/-- C4 (amended): `record` inserts count 1 for an absent trace, stores
`(c + 1) % 2^32` for a trace present with count `c` (equal to `c + 1`
except at `c = 2^32 - 1`), leaves every other key unchanged, and — traces
equal slot-wise including zero padding being literally the same key —
recording the same trace twice from empty yields a single entry with
count 2. -/
theorem c4_record_semantics (us : List Nat → Option Nat) (t : List Nat) :
    (us t = none → record us t t = some 1) ∧
    (∀ c, us t = some c → record us t t = some ((c + 1) % U32)) ∧
    (∀ k, k ≠ t → record us t k = us k) ∧
    (record (record (fun _ => none) t) t t = some 2 ∧
      ∀ k, k ≠ t → record (record (fun _ => none) t) t k = none) := by
  refine ⟨fun h => ?_, fun c hc => ?_, fun k hk => ?_, ?_, fun k hk => ?_⟩
  · unfold record
    rw [if_pos rfl, h]
    rfl
  · unfold record
    rw [if_pos rfl, hc]
    rfl
  · unfold record
    rw [if_neg hk]
  · unfold record
    rw [if_pos rfl, if_pos rfl]
    rfl
  · unfold record
    rw [if_neg hk, if_neg hk]

/-- Witness for C4 (amended): double recording of the all-zero trace from
the empty table yields a single entry with count 2. -/
theorem c4_record_semantics_witness :
    record (record (fun _ => none) (List.replicate 48 0))
        (List.replicate 48 0) (List.replicate 48 0) = some 2 ∧
      record (record (fun _ => none) (List.replicate 48 0))
        (List.replicate 48 0) (List.replicate 48 1) = none :=
  ⟨(c4_record_semantics (fun _ => none) (List.replicate 48 0)).2.2.2.1,
    (c4_record_semantics (fun _ => none) (List.replicate 48 0)).2.2.2.2
      (List.replicate 48 1) (by decide)⟩

/-- Unfolding of `bsLoop` at fuel 0: the loop returns the carried `i`. -/
theorem bsLoop_zero (pc : Nat → Option Nat) (q l r i : Nat) :
    bsLoop pc q 0 l r i = i := rfl

/-- Unfolding of `bsLoop` at fuel `k + 1`: one iteration of the search. -/
theorem bsLoop_succ (pc : Nat → Option Nat) (q k l r i : Nat) :
    bsLoop pc q (k + 1) l r i =
      if r < l then i
      else
        if (pc (((l + r) % U32) / 2)).getD U64MAX < q then
          bsLoop pc q k (((l + r) % U32) / 2) r (((l + r) % U32) / 2)
        else
          bsLoop pc q k l (((l + r) % U32) / 2) (((l + r) % U32) / 2) := rfl

/-- When `left = right = l` the search is stuck at `l`: the midpoint is
`l` and neither branch changes the interval. -/
theorem bsLoop_self (pc : Nat → Option Nat) (q f l i0 : Nat)
    (hl : 2 * l < 4294967296) :
    bsLoop pc q f l l i0 = if f = 0 then i0 else l := by
  induction f generalizing i0 with
  | zero => rfl
  | succ f ih =>
    have hm : ((l + l) % U32) / 2 = l := by unfold U32; omega
    rw [bsLoop_succ, hm, if_neg (lt_irrefl l), if_neg (Nat.succ_ne_zero f)]
    split <;> · rw [ih l]; split <;> rfl

/-- When `right = left + 1` the search is stuck at `left`: the midpoint is
`left`, the left branch keeps the interval, the right branch collapses it
to `[left, left]`. -/
theorem bsLoop_adj (pc : Nat → Option Nat) (q f l i0 : Nat)
    (hl : 2 * l + 1 < 4294967296) :
    bsLoop pc q (f + 1) l (l + 1) i0 = l := by
  induction f generalizing i0 with
  | zero =>
    have hm : ((l + (l + 1)) % U32) / 2 = l := by unfold U32; omega
    rw [bsLoop_succ, hm, if_neg (by omega : ¬ l + 1 < l)]
    split <;> rfl
  | succ f ih =>
    have hm : ((l + (l + 1)) % U32) / 2 = l := by unfold U32; omega
    rw [bsLoop_succ, hm, if_neg (by omega : ¬ l + 1 < l)]
    split
    · exact ih l
    · rw [bsLoop_self pc q (f + 1) l l (by omega), if_neg (Nat.succ_ne_zero f)]

/-- Counting over `List.range m` of a predicate that holds exactly on the
initial segment `[0, k)` gives `k`. -/
theorem countP_range_initial (p : Nat → Bool) (m k : Nat) (hk : k ≤ m)
    (h : ∀ i, i < m → (p i = true ↔ i < k)) :
    List.countP p (List.range m) = k := by
  induction m generalizing k with
  | zero =>
    have : k = 0 := by omega
    subst this
    rfl
  | succ m ih =>
    rw [List.range_succ, List.countP_append]
    by_cases hkm : k ≤ m
    · have hpm : p m = false := by
        by_contra hp
        simp only [Bool.not_eq_false] at hp
        have := (h m (Nat.lt_succ_self m)).mp hp
        omega
      have hcm := ih k hkm fun i hi => h i (by omega)
      simp [List.countP_cons, List.countP_nil, hpm, hcm]
    · have hk1 : k = m + 1 := by omega
      subst hk1
      have hpm : p m = true := (h m (Nat.lt_succ_self m)).mpr (Nat.lt_succ_self m)
      have hcm : List.countP p (List.range m) = m :=
        ih m le_rfl fun i hi =>
          ⟨fun _ => hi, fun _ => (h i (by omega)).mpr (by omega)⟩
      simp [List.countP_cons, List.countP_nil, hpm, hcm]

/-- When the interval has shrunk to adjacent `left`, `right`, the loop
invariant pins `left` as the greatest index `< N - 1` whose value is
strictly below the query. -/
theorem lowerIdx_adj (val : Nat → Nat) (N q l r : Nat)
    (hmono : ∀ i j, i ≤ j → j < N → val i ≤ val j)
    (h1 : l < r) (h2 : r ≤ N - 1)
    (h3 : l = 0 ∨ val l < q) (h4 : r = N - 1 ∨ q ≤ val r)
    (hadj : r = l + 1) :
    lowerIdx val (N - 1) q = l := by
  have hN : 2 ≤ N := by omega
  unfold lowerIdx
  by_cases hvl : val l < q
  · have hc : List.countP (fun i => decide (val i < q))
        (List.range (N - 1)) = l + 1 := by
      apply countP_range_initial _ _ (l + 1) (by omega)
      intro i hi
      simp only [decide_eq_true_eq]
      constructor
      · intro hp
        by_contra hcon
        rcases h4 with h4 | h4
        · omega
        · have := hmono r i (by omega) (by omega)
          omega
      · intro hil
        have := hmono i l (by omega) (by omega)
        omega
    rw [hc]
    omega
  · have hl0 : l = 0 := by
      rcases h3 with h3 | h3
      · exact h3
      · exact absurd h3 hvl
    subst hl0
    have hc : List.countP (fun i => decide (val i < q))
        (List.range (N - 1)) = 0 := by
      apply countP_range_initial _ _ 0 (Nat.zero_le _)
      intro i hi
      simp only [decide_eq_true_eq]
      constructor
      · intro hp
        have := hmono 0 i (Nat.zero_le i) (by omega)
        omega
      · intro hcon
        exact absurd hcon (Nat.not_lt_zero i)
    rw [hc]

/-- Main invariant induction for the capped search: from a state
`left < right` with `val left < q` (or `left = 0`), `q ≤ val right` (or
`right = N - 1`), and gap at most `2^g`, a further `g + 1` iterations
converge to the greatest index `< N - 1` with value strictly below the
query. -/
theorem bsLoop_main (pc : Nat → Option Nat) (val : Nat → Nat) (N q : Nat)
    (hpc : ∀ i, i < N → pc i = some (val i))
    (hmono : ∀ i j, i ≤ j → j < N → val i ≤ val j)
    (hN : N ≤ 8388609) :
    ∀ g l r i0, l < r → r ≤ N - 1 → (l = 0 ∨ val l < q) →
      (r = N - 1 ∨ q ≤ val r) → r - l ≤ 2 ^ g →
      bsLoop pc q (g + 1) l r i0 = lowerIdx val (N - 1) q := by
  intro g
  induction g with
  | zero =>
    intro l r i0 h1 h2 h3 h4 h5
    have hadj : r = l + 1 := by
      have hp0 : (2:Nat) ^ 0 = 1 := rfl
      omega
    rw [hadj, bsLoop_adj pc q 0 l i0 (by omega)]
    exact (lowerIdx_adj val N q l r hmono h1 h2 h3 h4 hadj).symm
  | succ g ih =>
    intro l r i0 h1 h2 h3 h4 h5
    by_cases hadj : r = l + 1
    · rw [hadj, bsLoop_adj pc q (g + 1) l i0 (by omega)]
      exact (lowerIdx_adj val N q l r hmono h1 h2 h3 h4 hadj).symm
    · have hgap : l + 2 ≤ r := by omega
      have hmod : (l + r) % U32 = l + r := by unfold U32; omega
      rw [bsLoop_succ, hmod, if_neg (by omega : ¬ r < l),
        hpc ((l + r) / 2) (by omega)]
      simp only [Option.getD_some]
      by_cases hc : val ((l + r) / 2) < q
      · rw [if_pos hc]
        apply ih ((l + r) / 2) r ((l + r) / 2) (by omega) h2 (Or.inr hc) h4
        have hp2 : (2:Nat) ^ (g + 1) = 2 * 2 ^ g := by ring
        omega
      · rw [if_neg hc]
        apply ih l ((l + r) / 2) ((l + r) / 2) (by omega) (by omega) h3
          (Or.inr (Nat.le_of_not_lt hc))
        have hp2 : (2:Nat) ^ (g + 1) = 2 * 2 ^ g := by ring
        omega

/-- What `binary_search` actually computes on a populated monotone table
small enough for the iteration cap. -/
theorem binary_search_lowerIdx (pc : Nat → Option Nat) (val : Nat → Nat)
    (N q : Nat) (hpc : ∀ i, i < N → pc i = some (val i))
    (hmono : ∀ i j, i ≤ j → j < N → val i ≤ val j)
    (hN1 : 1 ≤ N) (hN : N ≤ 8388609) :
    binary_search pc (some N) q = lowerIdx val (N - 1) q := by
  unfold binary_search MAX_BIN_SEARCH_DEPTH
  have hr : ((some N : Option Nat).getD 1 + (U32 - 1)) % U32 = N - 1 := by
    simp only [Option.getD_some]
    unfold U32
    omega
  rw [hr]
  by_cases hN2 : N = 1
  · subst hN2
    rw [show (1:Nat) - 1 = 0 from rfl, bsLoop_self pc q 24 0 0 (by omega)]
    simp [lowerIdx]
  · have h2 : 2 ≤ N := by omega
    have key := bsLoop_main pc val N q hpc hmono hN 23 0 (N - 1) 0
      (by omega) (le_refl (N - 1)) (Or.inl rfl) (Or.inl rfl)
      (by have hp : (2:Nat) ^ 23 = 8388608 := by norm_num
          omega)
    exact key

/-- With every `PC` entry unpopulated (reading as `u64::MAX`), the loop
from `left = 0` halves `right` each iteration: the result is
`right / 2 ^ fuel`. -/
theorem bsLoop_allNone (pc : Nat → Option Nat) (q : Nat)
    (hpc : ∀ i, pc i = none) (hq : q ≤ U64MAX) :
    ∀ k r i0, r < 4294967296 → bsLoop pc q (k + 1) 0 r i0 = r / 2 ^ (k + 1) := by
  intro k
  induction k with
  | zero =>
    intro r i0 hr
    have hm : ((0 + r) % U32) / 2 = r / 2 := by unfold U32; omega
    rw [bsLoop_succ, hm, if_neg (by omega : ¬ r < 0), hpc (r / 2)]
    simp only [Option.getD_none]
    rw [if_neg (by unfold U64MAX at hq ⊢; omega), pow_one]
    rfl
  | succ k ih =>
    intro r i0 hr
    have hm : ((0 + r) % U32) / 2 = r / 2 := by unfold U32; omega
    rw [bsLoop_succ, hm, if_neg (by omega : ¬ r < 0), hpc (r / 2)]
    simp only [Option.getD_none]
    rw [if_neg (by unfold U64MAX at hq ⊢; omega),
      ih (r / 2) (r / 2) (by omega), Nat.div_div_eq_div_mul]
    congr 1
    ring

/-- C1 fails as stated: on the two-entry monotone table with addresses
10, 20 and query 20, the greatest address ≤ 20 sits at index 1 (the spec
contract `specLocate`), but `binary_search` compares with strict `<` and
never moves `left` past the midpoint, returning 0. -/
theorem c1_locate_counterexample :
    specLocate (fun i => 10 * (i + 1)) 2 20 = 1 ∧
      binary_search (fun i => if i < 2 then some (10 * (i + 1)) else none)
        (some 2) 20 = 0 := by
  constructor
  · decide
  · decide

/-- C1 (amended): for every table with `1 ≤ N ≤ 2^23 + 1` monotonically
non-decreasing valid entries and every query, `binary_search` returns the
greatest index `i ≤ N - 2` whose address is strictly less than the query,
and 0 if there is none — not the greatest-address-≤-query index: queries
equal to an entry's address select the previous entry, and index `N - 1`
is never returned when `N ≥ 2`. -/
theorem c1_locate_strict_lower (pc : Nat → Option Nat) (val : Nat → Nat)
    (N q : Nat) (hpc : ∀ i, i < N → pc i = some (val i))
    (hmono : ∀ i j, i ≤ j → j < N → val i ≤ val j)
    (hN1 : 1 ≤ N) (hN : N ≤ 8388609) :
    binary_search pc (some N) q = lowerIdx val (N - 1) q :=
  binary_search_lowerIdx pc val N q hpc hmono hN1 hN

/-- Witness for C1 (amended) on the table 10, 20, 30 with query 25: the
greatest entry strictly below 25 sits at index 1. -/
theorem c1_locate_strict_lower_witness :
    binary_search (fun i => if i < 3 then some (10 * (i + 1)) else none)
        (some 3) 25 = lowerIdx (fun i => 10 * (i + 1)) 2 25 ∧
      lowerIdx (fun i => 10 * (i + 1)) 2 25 = 1 := by
  constructor
  · exact c1_locate_strict_lower
      (fun i => if i < 3 then some (10 * (i + 1)) else none)
      (fun i => 10 * (i + 1)) 3 25 (fun i hi => by simp [hi])
      (fun i j hij hj => by show 10 * (i + 1) ≤ 10 * (j + 1); omega)
      (by omega) (by omega)
  · decide

/-- C2 fails as stated: on the empty table (populated count 0), the `u32`
initialisation `right = count - 1` wraps to `2^32 - 1` and 24 halvings
leave index 255, not the claimed 0. -/
theorem c2_empty_counterexample :
    binary_search (fun _ => none) (some 0) 100 = 255 ∧ (255 : Nat) ≠ 0 := by
  constructor
  · decide
  · decide

/-- C2 (amended): with at least one populated entry (monotone, at most
`2^23 + 1` entries), the search returns index 0 whenever no entry's
address is ≤ the query; but on an empty table the `u32` count underflows
and the capped loop returns index 255 instead of 0. -/
theorem c2_no_qualifying_entry :
    (∀ (pc : Nat → Option Nat) (val : Nat → Nat) (N q : Nat),
        (∀ i, i < N → pc i = some (val i)) →
        (∀ i j, i ≤ j → j < N → val i ≤ val j) →
        1 ≤ N → N ≤ 8388609 → (∀ i, i < N → q < val i) →
        binary_search pc (some N) q = 0) ∧
    (∀ (pc : Nat → Option Nat) (q : Nat), (∀ i, pc i = none) →
        q ≤ U64MAX → binary_search pc (some 0) q = 255) := by
  constructor
  · intro pc val N q hpc hmono hN1 hN hq
    rw [binary_search_lowerIdx pc val N q hpc hmono hN1 hN]
    unfold lowerIdx
    have hc : List.countP (fun i => decide (val i < q))
        (List.range (N - 1)) = 0 := by
      apply countP_range_initial _ _ 0 (Nat.zero_le _)
      intro i hi
      simp only [decide_eq_true_eq]
      constructor
      · intro hp
        have := hq i (by omega)
        omega
      · intro hcon
        exact absurd hcon (Nat.not_lt_zero i)
    rw [hc]
  · intro pc q hpc hq
    unfold binary_search MAX_BIN_SEARCH_DEPTH
    have hr : ((some 0 : Option Nat).getD 1 + (U32 - 1)) % U32 = 4294967295 := by
      simp only [Option.getD_some]
      unfold U32
      omega
    rw [hr]
    have key := bsLoop_allNone pc q hpc hq 23 4294967295 0 (by omega)
    norm_num at key
    exact key

/-- Witness for C2 (amended): a one-entry table with address 10 and query
5 (no entry ≤ 5) yields index 0; the empty table yields 255. -/
theorem c2_no_qualifying_entry_witness :
    binary_search (fun i => if i < 1 then some 10 else none) (some 1) 5 = 0 ∧
      binary_search (fun _ => none) (some 0) 7 = 255 := by
  constructor
  · exact c2_no_qualifying_entry.1 (fun i => if i < 1 then some 10 else none)
      (fun _ => 10) 1 5 (fun i hi => by simp [hi])
      (fun i j hij hj => le_refl 10) (by omega) (by omega)
      (fun i hi => by show (5:Nat) < 10; omega)
  · exact c2_no_qualifying_entry.2 (fun _ => none) 7 (fun i => rfl)
      (by unfold U64MAX; omega)

/-- Unfolding of `overwrite` on a cons: write the head, recurse shifted. -/
theorem overwrite_cons (d x : Nat) (xs s : List Nat) :
    overwrite d (x :: xs) s = overwrite (d + 1) xs (s.set d x) := rfl

/-- `List.set` past the end of the list is a no-op. -/
theorem set_out_of_range (s : List Nat) :
    ∀ n x, s.length ≤ n → s.set n x = s := by
  induction s with
  | nil => intro n x h; rfl
  | cons a s ih =>
    intro n x h
    cases n with
    | zero => simp at h
    | succ n =>
      show a :: s.set n x = a :: s
      rw [ih n x (by simpa using h)]

/-- Setting the element just past a left factor writes into the right
factor. -/
theorem set_append_len (A s : List Nat) (x : Nat) :
    (A ++ s).set A.length x = A ++ s.set 0 x := by
  induction A with
  | nil => rfl
  | cons a A ih =>
    show a :: (A ++ s).set A.length x = a :: (A ++ s.set 0 x)
    rw [ih]

/-- `overwrite` past the end of the target list is a no-op. -/
theorem overwrite_out_of_range (l : List Nat) :
    ∀ d (s : List Nat), s.length ≤ d → overwrite d l s = s := by
  induction l with
  | nil => intro d s h; rfl
  | cons x xs ih =>
    intro d s h
    rw [overwrite_cons, set_out_of_range s d x h]
    exact ih (d + 1) s (by omega)

/-- `overwrite` at offset `d` leaves a length-`d` left factor untouched. -/
theorem overwrite_shift (l : List Nat) :
    ∀ (A s : List Nat) d, A.length = d →
      overwrite d l (A ++ s) = A ++ overwrite 0 l s := by
  induction l with
  | nil => intro A s d hd; rfl
  | cons x xs ih =>
    intro A s d hd
    subst hd
    cases s with
    | nil =>
      rw [List.append_nil, overwrite_cons,
        set_out_of_range A A.length x le_rfl,
        overwrite_out_of_range xs (A.length + 1) A (by omega),
        overwrite_out_of_range (x :: xs) 0 [] (by simp), List.append_nil]
    | cons b s2 =>
      rw [overwrite_cons, set_append_len]
      show overwrite (A.length + 1) xs (A ++ x :: s2) =
        A ++ overwrite 1 xs (x :: s2)
      have h1 : A ++ x :: s2 = (A ++ [x]) ++ s2 := by simp
      rw [h1, ih (A ++ [x]) s2 (A.length + 1) (by simp)]
      show (A ++ [x]) ++ overwrite 0 xs s2 = A ++ overwrite 1 xs ([x] ++ s2)
      rw [ih [x] s2 1 rfl]
      simp

/-- Writing a recorded prefix into the zero-initialised trace yields the
prefix followed by zero padding. -/
theorem overwrite_replicate (l : List Nat) :
    ∀ n, l.length ≤ n →
      overwrite 0 l (List.replicate n 0) =
        l ++ List.replicate (n - l.length) 0 := by
  induction l with
  | nil => intro n h; simp [overwrite]
  | cons x xs ih =>
    intro n h
    cases n with
    | zero => simp at h
    | succ m =>
      have hlen : m + 1 - (x :: xs).length = m - xs.length := by
        simp only [List.length_cons]
        omega
      rw [hlen, List.replicate_succ, overwrite_cons]
      show overwrite 1 xs ([x] ++ List.replicate m 0) =
        (x :: xs) ++ List.replicate (m - xs.length) 0
      rw [overwrite_shift xs [x] (List.replicate m 0) 1 rfl,
        ih m (by simpa using h)]
      simp

/-- The walk loop writes exactly the recorded sequence `btList` into the
trace array at consecutive indices. -/
theorem btAux_eq_overwrite (pcT : Nat → Option Nat) (cnt : Option Nat)
    (rspT ripT : Nat → Option Instruction) (mem : Nat → Option Nat) :
    ∀ fuel d rip rsp stack,
      btAux pcT cnt rspT ripT mem fuel d rip rsp stack =
        overwrite d (btList pcT cnt rspT ripT mem fuel rip rsp) stack := by
  intro fuel
  induction fuel with
  | zero => intro d rip rsp stack; rfl
  | succ fuel ih =>
    intro d rip rsp stack
    by_cases h0 : rip = 0
    · subst h0; rfl
    · cases hA : rspT (binary_search pcT cnt rip) with
      | none => simp only [btAux, btList, if_neg h0, hA]; rfl
      | some insA =>
        cases hcfa : execute_instruction mem insA rip rsp 0 with
        | none => simp only [btAux, btList, if_neg h0, hA, hcfa]; rfl
        | some cfa =>
          cases hB : ripT (binary_search pcT cnt rip) with
          | none => simp only [btAux, btList, if_neg h0, hA, hcfa, hB]; rfl
          | some insB =>
            simp only [btAux, btList, if_neg h0, hA, hcfa, hB]
            rw [overwrite_cons]
            exact ih (d + 1)
              ((execute_instruction mem insB rip rsp cfa).getD 0) cfa
              (stack.set d rip)

/-- The walk records at most one instruction pointer per unit of fuel. -/
theorem btList_length (pcT : Nat → Option Nat) (cnt : Option Nat)
    (rspT ripT : Nat → Option Instruction) (mem : Nat → Option Nat) :
    ∀ fuel rip rsp,
      (btList pcT cnt rspT ripT mem fuel rip rsp).length ≤ fuel := by
  intro fuel
  induction fuel with
  | zero => intro rip rsp; simp [btList]
  | succ fuel ih =>
    intro rip rsp
    by_cases h0 : rip = 0
    · subst h0
      show ((0 : Nat) :: []).length ≤ fuel + 1
      simp
    · simp only [btList, if_neg h0]
      cases hA : rspT (binary_search pcT cnt rip) with
      | none => simp only [hA, List.length_cons, List.length_nil]; omega
      | some insA =>
        cases hcfa : execute_instruction mem insA rip rsp 0 with
        | none => simp only [hA, hcfa, List.length_cons, List.length_nil]; omega
        | some cfa =>
          cases hB : ripT (binary_search pcT cnt rip) with
          | none =>
            simp only [hA, hcfa, hB, List.length_cons, List.length_nil]
            omega
          | some insB =>
            simp only [hA, hcfa, hB, List.length_cons]
            have := ih ((execute_instruction mem insB rip rsp cfa).getD 0) cfa
            omega

/-- C5: for every rule-table contents (including cyclic synthetic tables)
and every initial `(rip, rsp)`, the walk terminates with a trace of
exactly `MAX_STACK_DEPTH = 48` slots, records at most 48 frames (one per
loop iteration), and the trace is the recorded sequence padded with zeros
past the stopping point. -/
theorem c5_backtrace_bounded (pcT : Nat → Option Nat) (cnt : Option Nat)
    (rspT ripT : Nat → Option Instruction) (mem : Nat → Option Nat)
    (rip rsp : Nat) :
    (backtrace pcT cnt rspT ripT mem rip rsp).length = MAX_STACK_DEPTH ∧
    (btList pcT cnt rspT ripT mem MAX_STACK_DEPTH rip rsp).length ≤
      MAX_STACK_DEPTH ∧
    backtrace pcT cnt rspT ripT mem rip rsp =
      btList pcT cnt rspT ripT mem MAX_STACK_DEPTH rip rsp ++
        List.replicate
          (MAX_STACK_DEPTH -
            (btList pcT cnt rspT ripT mem MAX_STACK_DEPTH rip rsp).length)
          0 := by
  have hlen := btList_length pcT cnt rspT ripT mem MAX_STACK_DEPTH rip rsp
  have heq : backtrace pcT cnt rspT ripT mem rip rsp =
      btList pcT cnt rspT ripT mem MAX_STACK_DEPTH rip rsp ++
        List.replicate
          (MAX_STACK_DEPTH -
            (btList pcT cnt rspT ripT mem MAX_STACK_DEPTH rip rsp).length)
          0 := by
    unfold backtrace
    rw [btAux_eq_overwrite pcT cnt rspT ripT mem MAX_STACK_DEPTH 0 rip rsp,
      overwrite_replicate _ MAX_STACK_DEPTH hlen]
  refine ⟨?_, hlen, heq⟩
  rw [heq, List.length_append, List.length_replicate]
  omega

/-- C8: when the return-address rule evaluates to `none`, the walk
continues with the explicit zero sentinel: the next slot records 0 and the
walk stops there, so the trace is exactly the one of a stack whose bottom
was reached at that depth — recorded pointers, then a zero, then zeros. -/
theorem c8_return_rule_zero_sentinel (pcT : Nat → Option Nat)
    (cnt : Option Nat) (rspT ripT : Nat → Option Instruction)
    (mem : Nat → Option Nat) (rip rsp fuel : Nat) (insA insB : Instruction)
    (cfa : Nat) (hf : 2 ≤ fuel) (h0 : rip ≠ 0)
    (hA : rspT (binary_search pcT cnt rip) = some insA)
    (hcfa : execute_instruction mem insA rip rsp 0 = some cfa)
    (hB : ripT (binary_search pcT cnt rip) = some insB)
    (hfail : execute_instruction mem insB rip rsp cfa = none) :
    btList pcT cnt rspT ripT mem fuel rip rsp = [rip, 0] ∧
    backtrace pcT cnt rspT ripT mem rip rsp =
      rip :: 0 :: List.replicate 46 0 := by
  have hgen : ∀ k, btList pcT cnt rspT ripT mem (k + 2) rip rsp = [rip, 0] := by
    intro k
    simp only [btList, if_neg h0, hA, hcfa, hB, hfail, Option.getD_none]
    simp [btList]
  obtain ⟨k, hk⟩ : ∃ k, fuel = k + 2 := ⟨fuel - 2, by omega⟩
  subst hk
  refine ⟨hgen k, ?_⟩
  have h48 : btList pcT cnt rspT ripT mem MAX_STACK_DEPTH rip rsp = [rip, 0] :=
    hgen 46
  unfold backtrace
  rw [btAux_eq_overwrite pcT cnt rspT ripT mem MAX_STACK_DEPTH 0 rip rsp, h48,
    overwrite_replicate [rip, 0] MAX_STACK_DEPTH (by simp [MAX_STACK_DEPTH])]
  simp [MAX_STACK_DEPTH]

/-- Witness for C8: a table whose frame-base rule is `AddToSp 0` and whose
return-address rule has the unrecognised opcode 9 (so the return address
evaluates to `none`); walking from `rip = 7` yields the trace `7, 0, 0…`. -/
theorem c8_return_rule_zero_sentinel_witness :
    btList (fun i => if i = 0 then some 5 else none) (some 1)
        (fun _ => some ⟨3, 0⟩) (fun _ => some ⟨9, 0⟩) (fun _ => none)
        2 7 100 = [7, 0] ∧
    backtrace (fun i => if i = 0 then some 5 else none) (some 1)
        (fun _ => some ⟨3, 0⟩) (fun _ => some ⟨9, 0⟩) (fun _ => none)
        7 100 = 7 :: 0 :: List.replicate 46 0 :=
  c8_return_rule_zero_sentinel (fun i => if i = 0 then some 5 else none)
    (some 1) (fun _ => some ⟨3, 0⟩) (fun _ => some ⟨9, 0⟩) (fun _ => none)
    7 100 2 ⟨3, 0⟩ ⟨9, 0⟩ 100 (by omega) (by omega) rfl (by decide) rfl
    (by decide)

/-- C9: a missing frame-base rule, a failed frame-base evaluation, or a
missing return-address rule stops the walk at the current depth: the trace
holds the pointers recorded so far and zeros beyond, and is returned
as-is. -/
theorem c9_lookup_miss_truncates (pcT : Nat → Option Nat) (cnt : Option Nat)
    (rspT ripT : Nat → Option Instruction) (mem : Nat → Option Nat)
    (rip rsp fuel : Nat) (hf : 1 ≤ fuel) (h0 : rip ≠ 0)
    (hstop :
      rspT (binary_search pcT cnt rip) = none ∨
      (∃ insA, rspT (binary_search pcT cnt rip) = some insA ∧
        execute_instruction mem insA rip rsp 0 = none) ∨
      (∃ insA cfa, rspT (binary_search pcT cnt rip) = some insA ∧
        execute_instruction mem insA rip rsp 0 = some cfa ∧
        ripT (binary_search pcT cnt rip) = none)) :
    btList pcT cnt rspT ripT mem fuel rip rsp = [rip] ∧
    backtrace pcT cnt rspT ripT mem rip rsp =
      rip :: List.replicate 47 0 := by
  have hgen : ∀ k, btList pcT cnt rspT ripT mem (k + 1) rip rsp = [rip] := by
    intro k
    rcases hstop with hA | ⟨insA, hA, hcfa⟩ | ⟨insA, cfa, hA, hcfa, hB⟩
    · simp [btList, h0, hA]
    · simp [btList, h0, hA, hcfa]
    · simp [btList, h0, hA, hcfa, hB]
  obtain ⟨k, hk⟩ : ∃ k, fuel = k + 1 := ⟨fuel - 1, by omega⟩
  subst hk
  refine ⟨hgen k, ?_⟩
  have h48 : btList pcT cnt rspT ripT mem MAX_STACK_DEPTH rip rsp = [rip] :=
    hgen 47
  unfold backtrace
  rw [btAux_eq_overwrite pcT cnt rspT ripT mem MAX_STACK_DEPTH 0 rip rsp, h48,
    overwrite_replicate [rip] MAX_STACK_DEPTH (by simp [MAX_STACK_DEPTH])]
  simp [MAX_STACK_DEPTH]

/-- Witness for C9: with an empty frame-base rule table, walking from
`rip = 7` records one slot and truncates. -/
theorem c9_lookup_miss_truncates_witness :
    btList (fun _ => some 5) (some 1) (fun _ => none) (fun _ => none)
        (fun _ => none) 1 7 100 = [7] ∧
    backtrace (fun _ => some 5) (some 1) (fun _ => none) (fun _ => none)
        (fun _ => none) 7 100 = 7 :: List.replicate 47 0 :=
  c9_lookup_miss_truncates (fun _ => some 5) (some 1) (fun _ => none)
    (fun _ => none) (fun _ => none) 7 100 1 (by omega) (by omega)
    (Or.inl rfl)

/-- C10: the sampler touches the `USER_STACK` aggregation table only when
`CONFIG` index 1 holds a pid equal to the current task's pid; when the
entry is absent or differs, the map contents are returned unchanged (no
walk result is recorded), and when it matches, the update is exactly
recording the walk's trace. -/
theorem c10_pid_filter (config : Nat → Option Nat) (curPid : Nat)
    (pcT : Nat → Option Nat) (rspT ripT : Nat → Option Instruction)
    (mem : Nat → Option Nat) (rip0 rsp0 : Nat)
    (us : List Nat → Option Nat) :
    (config 1 = none →
      increment_stack_counter config curPid pcT rspT ripT mem rip0 rsp0 us =
        us) ∧
    (∀ pid, config 1 = some pid → curPid ≠ pid →
      increment_stack_counter config curPid pcT rspT ripT mem rip0 rsp0 us =
        us) ∧
    (config 1 = some curPid →
      increment_stack_counter config curPid pcT rspT ripT mem rip0 rsp0 us =
        record us (backtrace pcT (config 0) rspT ripT mem rip0 rsp0)) := by
  refine ⟨fun h => ?_, fun pid h hne => ?_, fun h => ?_⟩
  · simp [increment_stack_counter, h]
  · simp [increment_stack_counter, h, hne]
  · simp [increment_stack_counter, h]

/-- Witness for C10: with `CONFIG` index 1 configured to pid 99 and the
current pid 5, the aggregation table is untouched. -/
theorem c10_pid_filter_witness :
    increment_stack_counter (fun j => if j = 1 then some 99 else none) 5
        (fun _ => none) (fun _ => none) (fun _ => none) (fun _ => none) 7 8
        (fun _ => none) = (fun _ => none) :=
  (c10_pid_filter (fun j => if j = 1 then some 99 else none) 5
      (fun _ => none) (fun _ => none) (fun _ => none) (fun _ => none) 7 8
      (fun _ => none)).2.1 99 (by decide) (by omega)
